import Mathlib

/-!
# Shallow embedding of the dutch-kbqa LCS / masking core

This file embeds, in Lean 4, the parts of the `dutch-kbqa` repository that the
frozen claims C1–C10 are about:

* the string utilities of `source/cpp-ds-create/source/utilities.cpp`
  (first-occurrence substring search and replacement);
* the Ukkonen suffix-tree data structures and operations of
  `source/cpp-ds-create/source/suffix-trees/` (`explicit-state.cpp`,
  `suffix-tree.cpp`, `longest-common-substring.cpp`);
* the masking consumer of
  `source/cpp-ds-create/source/tasks/mask-question-answer-pairs.cpp`;
* where a claim also cites the parallel `cpp-pre-processing` implementation,
  the relevant parts of `cpp-pre-processing/src/suffix-tree/explicit-state.cpp`.

Strings are modelled as `List Char` (one entry per Unicode code point, which is
exactly what the C++ `UnicodeString` stores).  C++ `int` indices are modelled
as `Int`.  Fallible operations (null-pointer dereference, `.value()` on a
disengaged optional, `std::logic_error`) are modelled in an `Except` monad
with an explicit error type.  `double` score fractions are modelled as `ℚ`;
the theorems about them carry non-empty-label hypotheses so that the modelled
division is exact, matching the C++ values at the inputs considered.
-/

namespace DutchKBQA

/-- Failure events of the C++ code: dereferencing a null state pointer,
`std::map::operator[]` on an absent key inside `weakly_get_transition` /
`internal_split`, `std::logic_error` ("overwriting an existing transition"),
out-of-range `std::vector` access, loop fuel exhaustion (modelling an
unterminated `while`), `.value()` on a disengaged `std::optional`, and the
`std::invalid_argument` of `wiki_data_symbol_for_entity_or_property`. -/
inductive Err where
  | nullDeref
  | missingTransition
  | overwriteTransition
  | outOfRange
  | fuelExhausted
  | valueOfNullopt
  | invalidArgument
  deriving Repr, DecidableEq

instance {ε α : Type} [DecidableEq ε] [DecidableEq α] : DecidableEq (Except ε α) :=
  fun a b =>
    match a, b with
    | .ok x, .ok y => decidable_of_iff (x = y) (by simp)
    | .error x, .error y => decidable_of_iff (x = y) (by simp)
    | .ok _, .error _ => isFalse (by simp)
    | .error _, .ok _ => isFalse (by simp)

/-! ## String utilities (`utilities.cpp`, `std::string::find` / `replace`) -/

/-- 0-based index of the first occurrence of `pat` in `s`, as
`std::string::find`: the least `p` with `pat` a prefix of `s` dropped by `p`
(`p` may equal `s.length`, which is how `find` reports an empty pattern at the
end), or `none` (`npos`) when there is no occurrence. -/
def firstOccIdx (pat s : List Char) : Option Nat :=
  (List.range (s.length + 1)).find? (fun p => pat.isPrefixOf (List.drop p s))

/-- Whether `pat` occurs in `s` as a contiguous substring. -/
def containsSubstring (pat s : List Char) : Bool :=
  (firstOccIdx pat s).isSome

/-- `str.replace(start_pos, from.length, to)` at the first occurrence of
`pat`, as performed by `substring_replacement_success` (`utilities.cpp`,
lines 265–278): `none` when `pat` does not occur. -/
def replaceFirst (s pat rep : List Char) : Option (List Char) :=
  (firstOccIdx pat s).map (fun p => List.take p s ++ rep ++ List.drop (p + pat.length) s)

/-- `substring_replacement_success` (`utilities.cpp`): replaces the first
occurrence of `pat` in `s` by `rep`, returning the success flag together with
the (possibly unchanged) string. -/
def substringReplacementSuccess (s pat rep : List Char) : Bool × List Char :=
  match replaceFirst s pat rep with
  | none => (false, s)
  | some s' => (true, s')

/-- `index_bounds_of_substring_in_string` (`utilities.cpp`, lines 245–253):
inclusive starting and ending index of the first occurrence of `sub` in
`str`, or `none`. -/
def indexBoundsOfSubstringInString (str sub : List Char) : Option (Int × Int) :=
  (firstOccIdx sub str).map (fun p => ((p : Int), (p : Int) + (sub.length : Int) - 1))

/-- Number of 0-based positions of `s` at which `pat` occurs. -/
def countOcc (pat s : List Char) : Nat :=
  ((List.range (s.length + 1)).filter (fun p => pat.isPrefixOf (List.drop p s))).length

/-! ## Separator/terminator pair selection
(`longest-common-substring.cpp` / `.hpp`) -/

/-- The fixed candidate list `separator_end_pairs` of
`longest-common-substring.hpp`, lines 30–35. -/
def separatorEndPairs : List (Char × Char) :=
  [('_', '*'), ('_', '$'), ('#', '$'), ('&', '~')]

/-- The per-pair test of `workable_separator_end_symbol_pair`
(`longest-common-substring.cpp`, lines 137–142): neither symbol of the pair
occurs in `first` nor in `second`. -/
def separatorPairUsable (first second : List Char) (pr : Char × Char) : Bool :=
  !(first.contains pr.1) && !(first.contains pr.2) &&
    !(second.contains pr.1) && !(second.contains pr.2)

/-- `workable_separator_end_symbol_pair` (`longest-common-substring.cpp`,
lines 135–146): the first candidate pair usable for `first` and `second`. -/
def workableSeparatorEndSymbolPair (first second : List Char) : Option (Char × Char) :=
  separatorEndPairs.find? (separatorPairUsable first second)

/-! ## Ukkonen suffix tree, `cpp-ds-create` variant
(`explicit-state.cpp`, `suffix-tree.cpp`)

Explicit states live in an arena (`Array StateData`); a C++ `ExplicitState*`
is an `Option Nat` arena index (`none` is the null pointer).  A transition's
right pointer is either an owned `int` (`RightPtr.owned`, the
`std::unique_ptr<int>` variant case) or a reference to the tree-global leaf
right pointer `e` (`RightPtr.sharedE`, the raw `int*` variant case, which in
the source always points at `SuffixTree::leaf_right_ptr`). -/

inductive RightPtr where
  | owned (v : Int)
  | sharedE
  deriving Repr, DecidableEq

/-- An `ExplicitState*` value: the null pointer, the tree's auxiliary state,
or an arena node.  (The auxiliary state's transitions return raw `int*` right
pointers aimed at the auxiliary `j` integers; those integers are never
written through, so such a pointer is modelled by the value it holds.) -/
inductive Ptr where
  | null
  | aux
  | node (i : Nat)
  deriving Repr, DecidableEq

/-- One outgoing transition `(left pointer, right pointer, child)` of an
explicit state.  In the C++ `state_transitions` map it is keyed by the code
point `S[left-1]`. -/
structure TransData where
  left : Int
  right : RightPtr
  child : Nat
  deriving Repr, DecidableEq

/-- Arena entry for one `ExplicitState`: its transition map (an association
list keyed by code point, mirroring `std::map`) and its parent and suffix
link pointers. -/
structure StateData where
  trans : List (Char × TransData)
  parent : Ptr
  suffixLink : Ptr
  deriving Repr, DecidableEq

/-- `SuffixTree` (`suffix-tree.hpp`): the code-point string, the arena of
explicit states (the root object owned by the auxiliary state is arena
index 0), the auxiliary state's transition data (code point ↦ the `j`
integer that serves as both left and right pointer of its synthetic
transition), the `root` member (what
`auxiliary->state_transition_if_present(S[0]).value()` returned, possibly
null), and the shared leaf right pointer `e`. -/
structure SuffixTreeDS where
  str : List Char
  states : Array StateData
  auxPairs : List (Char × Int)
  rootPtr : Ptr
  e : Int
  deriving Repr, DecidableEq

namespace SuffixTreeDS

/-- `UnicodeString::code_point_at` on a 0-based `int` index; out-of-range
access is a vector indexing fault. -/
def charAt (s : List Char) (i : Int) : Except Err Char :=
  if h : 0 ≤ i ∧ i.toNat < s.length then .ok (s.get ⟨i.toNat, h.2⟩) else .error .outOfRange

/-- Dereference an `ExplicitState*` that the surrounding code uses as an
ordinary arena node (the auxiliary state is handled by the virtual
dispatch in `hasTransitionP` / `getTransitionP` below). -/
def deref (T : SuffixTreeDS) (s? : Ptr) : Except Err (Nat × StateData) :=
  match s? with
  | .node s =>
    if h : s < T.states.size then .ok (s, T.states.get ⟨s, h⟩) else .error .nullDeref
  | _ => .error .nullDeref

/-- The value an effective right pointer denotes: an owned one holds its own
`int`, a shared one reads the tree's `e`. -/
def rightVal (T : SuffixTreeDS) : RightPtr → Int
  | .owned v => v
  | .sharedE => T.e

/-- `ExplicitState::has_transition`. -/
def hasTransition (sd : StateData) (c : Char) : Bool :=
  (sd.trans.lookup c).isSome

/-- `ExplicitState::weakly_get_transition`; looking up an absent key is
undefined behaviour in the source (`operator[]` default-constructs a
transition holding null pointers which are then dereferenced), modelled as
an error. -/
def getTransition (sd : StateData) (c : Char) : Except Err TransData :=
  match sd.trans.lookup c with
  | none => .error .missingTransition
  | some tr => .ok tr

/-- `std::map::erase` on the transition map. -/
def eraseTransition (sd : StateData) (c : Char) : StateData :=
  { sd with trans := sd.trans.filter (fun p => p.1 ≠ c) }

/-- `has_transition` with the virtual dispatch of the source: the auxiliary
state answers from its code-point/`j` map (`explicit-state.cpp`,
lines 305–307), an ordinary state from its transition map, a null pointer
faults. -/
def hasTransitionP (T : SuffixTreeDS) (s? : Ptr) (c : Char) : Except Err Bool :=
  match s? with
  | .null => .error .nullDeref
  | .aux => .ok (T.auxPairs.lookup c).isSome
  | .node s => do
    let (_, sd) ← T.deref (.node s)
    .ok (hasTransition sd c)

/-- `weakly_get_transition` with virtual dispatch: the auxiliary state
returns the pair `(j, j)` targeting the root object (arena index 0), and
throws a `logic_error` on an absent code point (`explicit-state.cpp`,
lines 317–324). -/
def getTransitionP (T : SuffixTreeDS) (s? : Ptr) (c : Char) : Except Err TransData :=
  match s? with
  | .null => .error .nullDeref
  | .aux =>
    match T.auxPairs.lookup c with
    | none => .error .nullDeref
    | some j => .ok ⟨j, .owned j, 0⟩
  | .node s => do
    let (_, sd) ← T.deref (.node s)
    getTransition sd c

/-- `ExplicitState::set_transition` (`explicit-state.cpp`, lines 48–63): keys
the new transition by the code point at `left - 1` (1- to 0-based) and throws
a `logic_error` when a transition with that key already exists. -/
def setTransition (T : SuffixTreeDS) (s : Nat) (left : Int) (right : RightPtr)
    (child : Nat) : Except Err SuffixTreeDS := do
  let cp ← charAt T.str (left - 1)
  let (i, sd) ← T.deref (.node s)
  if hasTransition sd cp then
    .error .overwriteTransition
  else
    let sd' : StateData := { sd with trans := sd.trans ++ [(cp, ⟨left, right, child⟩)] }
    .ok { T with states := T.states.set! i sd' }

/-- `ExplicitState::internal_split` (`explicit-state.cpp`, lines 134–167):
breaks the transition of `s` keyed by the code point at `left - 1` in two by
introducing a fresh state `r`, returning `r`'s index together with the
updated tree. -/
def internalSplit (T : SuffixTreeDS) (s : Nat) (left : Int) (right : RightPtr) :
    Except Err (Nat × SuffixTreeDS) := do
  let k := left
  let tk ← charAt T.str (k - 1)
  let (si, sd) ← T.deref (.node s)
  let oldTr ← getTransition sd tk
  let kPrime := oldTr.left
  let p := T.rightVal right
  -- `std::make_unique<ExplicitState>(this)`: fresh state, parent `s`.
  let rId := T.states.size
  let T₁ : SuffixTreeDS :=
    { T with states := T.states.push ⟨[], .node si, .null⟩ }
  -- `r->set_transition(uni_str, k' + p - k + 1, old_right, old_child)`.
  let T₂ ← T₁.setTransition rId (kPrime + p - k + 1) oldTr.right oldTr.child
  -- erase the old `t_k` transition of `s`, then
  -- `set_transition(uni_str, k', owned (k' + p - k), r)`.
  let (si', sd') ← T₂.deref (.node s)
  let T₃ : SuffixTreeDS :=
    { T₂ with states := T₂.states.set! si' (eraseTransition sd' tk) }
  let T₄ ← T₃.setTransition s kPrime (.owned (kPrime + p - k)) rId
  .ok (rId, T₄)

/-- `internal_split` through an `ExplicitState*`: the source never reaches
this call on the auxiliary or a null state in any run considered here (the
auxiliary state's ordinary transition map is empty, so the source would
fault there too). -/
def internalSplitP (T : SuffixTreeDS) (s? : Ptr) (left : Int) (right : RightPtr) :
    Except Err (Nat × SuffixTreeDS) :=
  match s? with
  | .node s => T.internalSplit s left right
  | .aux => .error .missingTransition
  | .null => .error .nullDeref

/-- `SuffixTree::test_and_split` (`suffix-tree.cpp`, lines 104–123) on the
reference pair `(s?, k, p)` and code point `t`. -/
def testAndSplit (T : SuffixTreeDS) (s? : Ptr) (k p : Int) (t : Char) :
    Except Err (Bool × Ptr × SuffixTreeDS) := do
  if k ≤ p then
    let leftCp ← charAt T.str (k - 1)
    let tr ← T.getTransitionP s? leftCp
    let nextCp ← charAt T.str (tr.left + p - k)
    if t = nextCp then
      .ok (true, s?, T)
    else
      let (rId, T') ← T.internalSplitP s? tr.left (.owned (tr.left + p - k))
      .ok (false, .node rId, T')
  else
    let b ← T.hasTransitionP s? t
    .ok (b, s?, T)

/-- `ExplicitState::get_suffix_link`; the auxiliary state's inherited field
is never assigned and stays the null pointer. -/
def getSuffixLinkP (T : SuffixTreeDS) (s? : Ptr) : Except Err Ptr :=
  match s? with
  | .null => .error .nullDeref
  | .aux => .ok .null
  | .node s => do
    let (_, sd) ← T.deref (.node s)
    .ok sd.suffixLink

/-- `ExplicitState::set_suffix_link` through a pointer.  (`update` only ever
applies it to the root object or to previously created `r` states, never to
the auxiliary state.) -/
def setSuffixLinkP (T : SuffixTreeDS) (s? : Ptr) (target : Ptr) :
    Except Err SuffixTreeDS :=
  match s? with
  | .null => .error .nullDeref
  | .aux => .ok T
  | .node s => do
    let (i, sd) ← T.deref (.node s)
    .ok { T with states := T.states.set! i { sd with suffixLink := target } }

/-- Loop of `ReferencePair::canonised` (`suffix-tree.cpp`, lines 62–74);
`tr` holds the most recently fetched transition (which, as in the source, is
not refetched when `k` has moved past `p`), and `p` is the right pointer of
the reference pair being canonised. -/
def canonLoop (T : SuffixTreeDS) : Nat → Ptr → Int → TransData → Int →
    Except Err (Ptr × Int)
  | 0, _, _, _, _ => .error .fuelExhausted
  | fuel + 1, s, k, tr, p =>
    let pPrime := T.rightVal tr.right
    if pPrime - tr.left ≤ p - k then
      let k' := k + pPrime - tr.left + 1
      let s' : Ptr := .node tr.child
      if k' ≤ p then do
        let cp ← charAt T.str (k' - 1)
        let tr' ← T.getTransitionP s' cp
        canonLoop T fuel s' k' tr' p
      else
        canonLoop T fuel s' k' tr p
    else
      .ok (s, k)

/-- `ReferencePair::canonised` (`suffix-tree.cpp`, lines 44–77). -/
def canonised (T : SuffixTreeDS) (fuel : Nat) (s : Ptr) (k p : Int) :
    Except Err (Ptr × Int) :=
  if p < k then .ok (s, k)
  else do
    let cp ← charAt T.str (k - 1)
    let tr ← T.getTransitionP s cp
    canonLoop T fuel s k tr p

/-- Default fuel for the modelled `while` loops: any bound suffices for the
theorems below, which only exercise runs that fault before iterating. -/
def loopFuel (T : SuffixTreeDS) : Nat :=
  T.str.length + T.states.size + 2

/-- The `while (!end_point)` loop of `SuffixTree::update`
(`suffix-tree.cpp`, lines 149–168) followed by the final suffix-link
assignment and `return {state_s, k}`. -/
def updateGo (tI : Char) (p : Int) :
    Nat → SuffixTreeDS → Ptr → Int → Ptr → Bool → Ptr →
    Except Err (Ptr × Int × SuffixTreeDS)
  | fuel, T, stateS, k, oldRoot, endPoint, r =>
    if endPoint then do
      let T' ← if oldRoot ≠ T.rootPtr then T.setSuffixLinkP oldRoot stateS else .ok T
      .ok (stateS, k, T')
    else
      match fuel with
      | 0 => .error .fuelExhausted
      | fuel + 1 => do
        -- `r->set_transition(uni_str, p, leaf_right_ptr.get(), fresh r')`
        let (rId, _) ← T.deref r
        let rPrimeId := T.states.size
        let T₁ : SuffixTreeDS := { T with states := T.states.push ⟨[], r, .null⟩ }
        let T₂ ← T₁.setTransition rId p .sharedE rPrimeId
        let T₃ ← if oldRoot ≠ T₂.rootPtr then T₂.setSuffixLinkP oldRoot r else .ok T₂
        let sl ← T₃.getSuffixLinkP stateS
        let (s₂, k₂) ← T₃.canonised T₃.loopFuel sl k (p - 1)
        let (ep₂, r₂, T₄) ← T₃.testAndSplit s₂ k₂ (p - 1) tI
        updateGo tI p fuel T₄ s₂ k₂ r ep₂ r₂

/-- `SuffixTree::update` (`suffix-tree.cpp`, lines 137–173) on the reference
pair `(s?, k, p)`. -/
def update (T : SuffixTreeDS) (s? : Ptr) (k p : Int) :
    Except Err (Ptr × Int × SuffixTreeDS) := do
  let tI ← charAt T.str (p - 1)
  let (ep, r, T₁) ← T.testAndSplit s? k (p - 1) tI
  updateGo tI p T.loopFuel T₁ s? k T.rootPtr ep r

/-- The `while ((i + 1) <= length)` loop of `SuffixTree::construct`
(`suffix-tree.cpp`, lines 187–197); the fuel is the number of remaining
iterations, `T.str.length` at the entry point. -/
def constructGo : Nat → SuffixTreeDS → Ptr → Int → Int → Except Err SuffixTreeDS
  | 0, T, _, _, i =>
    if i + 1 ≤ (T.str.length : Int) then .error .fuelExhausted else .ok T
  | fuel + 1, T, s, k, i =>
    if i + 1 ≤ (T.str.length : Int) then do
      let i' := i + 1
      let T₁ : SuffixTreeDS := { T with e := T.e + 1 }
      let (s₁, k₁, T₂) ← T₁.update s k i'
      let (s₂, k₂) ← T₂.canonised T₂.loopFuel s₁ k₁ i'
      constructGo fuel T₂ s₂ k₂ i'
    else
      .ok T

/-- `SuffixTree::construct` (`suffix-tree.cpp`, lines 181–198). -/
def construct (T : SuffixTreeDS) : Except Err SuffixTreeDS :=
  constructGo T.str.length T T.rootPtr 1 0

end SuffixTreeDS

/-- `std::map`-style keyed overwrite used by the auxiliary-state constructor
(`map[cp] = {cp, j}`). -/
def mapSet (m : List (Char × Int)) (c : Char) (v : Int) : List (Char × Int) :=
  if (m.lookup c).isSome then
    m.map (fun p => if p.1 = c then (c, v) else p)
  else
    m ++ [(c, v)]

/-- The transition map built by `AuxiliaryState::AuxiliaryState`
(`source/cpp-ds-create/source/suffix-trees/explicit-state.cpp`,
lines 267–276).  The loop is
`for (int idx = 0; idx < -static_cast<int>(uni_str.length); idx++)`, so the
number of executed iterations is `max 0 (-(length))`; the body stores, for
the code point at `idx`, the pair integer `j`, with `j` starting at `-1` and
decremented each iteration. -/
def dsAuxPairs (str : List Char) : List (Char × Int) :=
  (List.range (-(str.length : Int)).toNat).foldl
    (fun m idx =>
      match str.get? idx with
      | some cp => mapSet m cp (-(idx : Int) - 1)
      | none => m)
    []

/-- `SuffixTree::SuffixTree` (`suffix-tree.cpp`, lines 84–89): builds the
auxiliary state (which owns the root object, arena index 0, whose parent and
suffix link are the auxiliary state), then sets the `root` member to
`auxiliary->state_transition_if_present(S[0]).value()`.  When the auxiliary
state has no transition on `S[0]`, `state_transition_if_present` returns an
engaged optional holding the null pointer (`return nullptr;`), so `.value()`
succeeds and the `root` member becomes null. -/
def mkSuffixTreeDS (str : List Char) : Except Err SuffixTreeDS := do
  let aux := dsAuxPairs str
  let rootState : StateData := ⟨[], .aux, .aux⟩
  let cp0 ← SuffixTreeDS.charAt str 0
  let rootPtr : Ptr := if (aux.lookup cp0).isSome then .node 0 else .null
  .ok ⟨str, #[rootState], aux, rootPtr, 0⟩

/-! ## LCS extraction (`longest-common-substring.cpp`) -/

/-- `SubstringType` (`longest-common-substring.hpp`, lines 41–46). -/
inductive SubstringType where
  | undetermined
  | first
  | second
  | firstAndSecond
  deriving Repr, DecidableEq

/-- `leaf_state_substring_type` (`longest-common-substring.cpp`,
lines 33–36). -/
def leafStateSubstringType (leafStateRange sepEndRange : Int × Int) : SubstringType :=
  if leafStateRange.1 ≤ sepEndRange.1 then .first else .second

/-- `updated_preliminary_state_substring_type`
(`longest-common-substring.cpp`, lines 46–67). -/
def updatedPreliminaryStateSubstringType (oldType childType : SubstringType) :
    SubstringType :=
  match oldType with
  | .undetermined => childType
  | .first => if oldType ≠ childType then .firstAndSecond else oldType
  | .second => if oldType ≠ childType then .firstAndSecond else oldType
  | .firstAndSecond => .firstAndSecond

/-- `is_leaf_state` (`longest-common-substring.cpp`, lines 17–19). -/
def isLeafState (sd : StateData) : Bool :=
  sd.trans.isEmpty

/-- `state_substring_type` (`longest-common-substring.cpp`, lines 88–122):
post-order DFS from arena state `es`, carrying the running `lcs_length` and
`lcs_start_index`; transitions are visited in ascending code-point order as
a `std::map` iterates.  The result is the state's substring type together
with the updated `(lcs_length, lcs_start_index)` pair.  `fuel` bounds the
recursion depth (the source recurses on the heap structure). -/
def stateSubstringType (T : SuffixTreeDS) :
    Nat → Nat → Int → Int × Int → Int → Int →
    Except Err (SubstringType × Int × Int)
  | 0, _, _, _, _, _ => .error .fuelExhausted
  | fuel + 1, es, length, sepEndRange, lcsLen, lcsStart => do
    let (_, sd) ← T.deref (.node es)
    let ordered := sd.trans.mergeSort (fun a b => a.1 ≤ b.1)
    let step := fun (acc : SubstringType × Int × Int) (ct : Char × TransData) => do
      let (esType, lcsLen₀, lcsStart₀) := acc
      let tr := ct.2
      let rv := T.rightVal tr.right
      let (_, childSd) ← T.deref (.node tr.child)
      let (childType, lcsLen₁, lcsStart₁) ←
        if isLeafState childSd then
          pure (leafStateSubstringType (tr.left, rv) sepEndRange, lcsLen₀, lcsStart₀)
        else
          stateSubstringType T fuel tr.child (length + (rv - tr.left + 1))
            sepEndRange lcsLen₀ lcsStart₀
      let esType' := updatedPreliminaryStateSubstringType esType childType
      if esType' = .firstAndSecond ∧ childType = .firstAndSecond then
        let total := length + (rv - tr.left + 1)
        if lcsLen₁ < total then
          pure (esType', total, rv - total + 1)
        else
          pure (esType', lcsLen₁, lcsStart₁)
      else
        pure (esType', lcsLen₁, lcsStart₁)
    ordered.foldlM step (SubstringType.undetermined, lcsLen, lcsStart)

/-- `std::optional::value()`: throws on a disengaged optional. -/
def optValue {α : Type} (o : Option α) : Except Err α :=
  match o with
  | some a => .ok a
  | none => .error .valueOfNullopt

/-- `UnicodeString::substring(start_index, end_index)` (half-open, 0-based);
an iterator range outside the vector is a fault. -/
def substringM (s : List Char) (lo hi : Int) : Except Err (List Char) :=
  if 0 ≤ lo ∧ lo ≤ hi ∧ hi.toNat ≤ s.length then
    .ok ((s.drop lo.toNat).take (hi - lo).toNat)
  else
    .error .outOfRange

/-- `longest_common_substring` (`longest-common-substring.cpp`,
lines 160–189): separator selection, concatenation `first ‖ sep ‖ second ‖
end`, tree construction, DFS classification, and extraction of
`C[lcs_start-1 .. lcs_start-1+lcs_length)`.  `.ok none` models
`std::nullopt`. -/
def dsLongestCommonSubstring (first second : List Char) :
    Except Err (Option (List Char)) :=
  match workableSeparatorEndSymbolPair first second with
  | none => .ok none
  | some sepEnd => do
    let concat := first ++ [sepEnd.1] ++ second ++ [sepEnd.2]
    let T ← mkSuffixTreeDS concat
    let T₁ ← T.construct
    let sepIdx ← optValue (concat.findIdx? (· = sepEnd.1))
    let endIdx ← optValue (concat.findIdx? (· = sepEnd.2))
    let root ←
      match T₁.rootPtr with
      | .node r => pure r
      | _ => .error .nullDeref
    let (_, maxLength, startIdx) ←
      stateSubstringType T₁ (T₁.states.size + 1) root 0
        ((sepIdx : Int) + 1, (endIdx : Int) + 1) 0 0
    if 0 ≤ maxLength - 1 then do
      let lcs ← substringM concat (startIdx - 1) (startIdx + maxLength - 1)
      .ok (some lcs)
    else
      .ok none

/-! ## Masking consumer (`tasks/mask-question-answer-pairs.cpp`,
`utilities.cpp`) -/

/-- `WikiDataSymbol` (`utilities.hpp`). -/
inductive WikiDataSymbol where
  | entity
  | property
  deriving Repr, DecidableEq

/-- `wiki_data_symbol_for_entity_or_property` (`utilities.cpp`,
lines 54–66): dispatch on the identifier's first character;
`std::invalid_argument` otherwise (and the debug assertion rejects the empty
identifier). -/
def wikiDataSymbolForEntityOrProperty (entOrPrp : List Char) :
    Except Err WikiDataSymbol :=
  match entOrPrp with
  | 'Q' :: _ => .ok .entity
  | 'P' :: _ => .ok .property
  | _ => .error .invalidArgument

/-- `LabelMatch` (`mask-question-answer-pairs.hpp`): the identifier, the
matched substring, its inclusive index bounds in the question, and the
match-quality numbers.  The C++ `double fraction_matched` is modelled as a
rational. -/
structure LabelMatch where
  entOrPrp : List Char
  matchStr : List Char
  bounds : Int × Int
  charsMatched : Nat
  fractionMatched : ℚ
  deriving Repr, DecidableEq

/-- `LabelMatch::LabelMatch` (`mask-question-answer-pairs.cpp`,
lines 35–51), given the value `lcsRes` that
`SuffixTrees::longest_common_substring(question, label)` produced: on a
present LCS the match bounds are the first-occurrence bounds in `question`
(`.value()` faults when the LCS does not occur in the question); on an
absent LCS the match is empty with `(npos, npos)` bounds (the
`static_cast<int>(std::string::npos)` of the source, i.e. `-1`). -/
def mkLabelMatch (question label entOrPrp : List Char)
    (lcsRes : Option (List Char)) : Except Err LabelMatch :=
  match lcsRes with
  | some m => do
    let b ← optValue (indexBoundsOfSubstringInString question m)
    .ok ⟨entOrPrp, m, b, m.length, (m.length : ℚ) / (label.length : ℚ)⟩
  | none =>
    .ok ⟨entOrPrp, [], (-1, -1), 0, (0 : ℚ) / (label.length : ℚ)⟩

/-- `LabelMatch::is_better_matching_label_than`
(`mask-question-answer-pairs.cpp`, lines 61–63). -/
def isBetterMatchingLabelThan (this other : LabelMatch) : Bool :=
  other.fractionMatched < this.fractionMatched

/-- `LabelMatch::best_label_match` (`mask-question-answer-pairs.cpp`,
lines 93–103) on a non-empty vector: start from the first element and take
each later candidate exactly when it is strictly better. -/
def bestLabelMatch (first : LabelMatch) (rest : List LabelMatch) : LabelMatch :=
  rest.foldl (fun best candidate =>
    if isBetterMatchingLabelThan candidate best then candidate else best) first

/-- `LabelMatch::appears_earlier_in_string`
(`mask-question-answer-pairs.cpp`, lines 76–82), the strict comparator that
`sorted_label_matches` hands to `std::sort`. -/
def appearsEarlierInString (first second : LabelMatch) : Bool :=
  if first.bounds.1 ≠ second.bounds.1 then
    first.bounds.1 < second.bounds.1
  else
    first.bounds.2 < second.bounds.2

/-- The (non-strict) order `std::sort` establishes with
`appears_earlier_in_string`: bounds ascending lexicographically. -/
def lexLeBounds (first second : LabelMatch) : Prop :=
  first.bounds.1 < second.bounds.1 ∨
    (first.bounds.1 = second.bounds.1 ∧ first.bounds.2 ≤ second.bounds.2)

/-- `LabelMatch::collision_present_in_label_matches`
(`mask-question-answer-pairs.cpp`, lines 124–134): on a sorted series,
scan adjacent pairs for an earlier inclusive end reaching a later start. -/
def collisionPresentInLabelMatches (ms : List LabelMatch) : Bool :=
  if ms.length < 2 then
    false
  else
    (ms.zip ms.tail).any
      (fun mm => mm.2.bounds.1 ≤ mm.1.bounds.2)

/-- `selected_label_for_entity_or_property` (`mask-question-answer-pairs.cpp`,
lines 216–234), with each candidate label paired with the value the LCS
engine returned for it (the engine call is the `LabelMatch` constructor's
`longest_common_substring(question, label)`): empty label set fails;
otherwise the best-scoring match is accepted exactly when its fraction
reaches `fractionMatchThreshold`. -/
def selectedLabelForEntityOrProperty (question entOrPrp : List Char)
    (labelsWithLcs : List (List Char × Option (List Char)))
    (fractionMatchThreshold : ℚ) :
    Except Err (Option (List Char × List Char)) := do
  match labelsWithLcs with
  | [] => .ok none
  | lw :: lws =>
    let firstMatch ← mkLabelMatch question lw.1 entOrPrp lw.2
    let restMatches ← lws.mapM (fun p => mkLabelMatch question p.1 entOrPrp p.2)
    let best := bestLabelMatch firstMatch restMatches
    if fractionMatchThreshold ≤ best.fractionMatched then
      .ok (some (entOrPrp, best.matchStr))
    else
      .ok none

/-- Per-question mask-assignment state: the entity and property counters and
the identifier-to-mask map (`ent_counter`, `prp_counter`, `mask_map` of
`masked_question_answer_pair`). -/
structure MaskState where
  entCounter : Int
  prpCounter : Int
  maskMap : List (List Char × List Char)
  deriving Repr, DecidableEq

/-- The mask token and next state that
`mask_single_entity_or_property_in_question`
(`mask-question-answer-pairs.cpp`, lines 294–319) determines for `match`:
an existing assignment is reused, otherwise `Q<ent_counter++>` or
`P<prp_counter++>` is allocated and recorded. -/
def maskFor (st : MaskState) (m : LabelMatch) :
    Except Err (List Char × MaskState) :=
  match st.maskMap.lookup m.entOrPrp with
  | some replacement => .ok (replacement, st)
  | none => do
    let sym ← wikiDataSymbolForEntityOrProperty m.entOrPrp
    match sym with
    | .entity =>
      let replacement := 'Q' :: (toString st.entCounter).data
      .ok (replacement,
        { st with entCounter := st.entCounter + 1,
                  maskMap := st.maskMap ++ [(m.entOrPrp, replacement)] })
    | .property =>
      let replacement := 'P' :: (toString st.prpCounter).data
      .ok (replacement,
        { st with prpCounter := st.prpCounter + 1,
                  maskMap := st.maskMap ++ [(m.entOrPrp, replacement)] })

/-- `mask_single_entity_or_property_in_question`
(`mask-question-answer-pairs.cpp`, lines 294–319): allocate or reuse the
mask and replace the first occurrence of the matched substring in `q` (the
returned success flag of `substring_replacement_success` is discarded). -/
def maskSingleEntityOrPropertyInQuestion (q : List Char) (m : LabelMatch)
    (st : MaskState) : Except Err (List Char × MaskState) := do
  let (replacement, st') ← maskFor st m
  .ok ((substringReplacementSuccess q m.matchStr replacement).2, st')

/-- The per-question masking walk of `masked_question_answer_pair`
(`mask-question-answer-pairs.cpp`, lines 384–394) restricted to the
question: fold `mask_single_entity_or_property_in_question` over the sorted
matches, starting from `ent_counter = 0`, `prp_counter = 0` and an empty
mask map. -/
def maskQuestionWalk : List LabelMatch → List Char → MaskState →
    Except Err (List Char × MaskState)
  | [], q, st => .ok (q, st)
  | m :: ms, q, st => do
    let (q', st') ← maskSingleEntityOrPropertyInQuestion q m st
    maskQuestionWalk ms q' st'

/-- The loop `while (substring_replacement_success(a, match.ent_or_prp,
mask));` of `mask_single_entity_or_property_in_answer`
(`mask-question-answer-pairs.cpp`, line 344), with explicit fuel: `none`
means the loop has not terminated within `fuel` iterations. -/
def maskAnswerLoop (ident mask : List Char) : Nat → List Char →
    Option (List Char)
  | 0, _ => none
  | fuel + 1, a =>
    match replaceFirst a ident mask with
    | none => some a
    | some a' => maskAnswerLoop ident mask fuel a'

/-- The `(bounds, mask)` pairs that the masking walk assigns to a series of
matches: the same counter/map logic as `maskFor`, detached from the string
replacement, so that the walk's output can be compared with a substitution
at the recorded ranges. -/
def assignedBoundsMasks : List LabelMatch → MaskState →
    Except Err (List ((Int × Int) × List Char) × MaskState)
  | [], st => .ok ([], st)
  | m :: ms, st => do
    let (mask, st') ← maskFor st m
    let (prs, st'') ← assignedBoundsMasks ms st'
    .ok ((m.bounds, mask) :: prs, st'')

/-- Modelled from the spec: "Replace each matched substring of `Q` by its
mask token … sorting ascending and tracking cumulative offset is
sufficient" — substitution at the recorded inclusive index ranges, each
shifted by the cumulative length change `off` of the earlier
replacements. -/
def specMaskFold : List ((Int × Int) × List Char) → List Char → Int → List Char
  | [], q, _ => q
  | (b, mask) :: rest, q, off =>
    specMaskFold rest
      (q.take (b.1 + off).toNat ++ mask ++ q.drop ((b.2 + off).toNat + 1))
      (off + (mask.length : Int) - (b.2 - b.1 + 1))

/-- Modelled from the spec: the masked question obtained by replacing every
chosen label substring at its recorded match range by its mask token,
leaving every other character unchanged. -/
def specMaskedQuestion (prs : List ((Int × Int) × List Char)) (q : List Char) :
    List Char :=
  specMaskFold prs q 0

/-- Alignment of the masking walk with the recorded ranges: at every step
the match string is non-empty, its recorded inclusive bounds are consistent
with its length, and its first occurrence in the evolving question is
exactly the recorded start shifted by the cumulative offset of the earlier
replacements. -/
def maskWalkAligned : List LabelMatch → List Char → Int → MaskState → Bool
  | [], _, _, _ => true
  | m :: ms, q, off, st =>
    match maskFor st m with
    | .error _ => false
    | .ok (mask, st') =>
      decide (m.matchStr ≠ []) &&
      decide (m.bounds.2 = m.bounds.1 + (m.matchStr.length : Int) - 1) &&
      decide (0 ≤ m.bounds.1 + off) &&
      decide (firstOccIdx m.matchStr q = some (m.bounds.1 + off).toNat) &&
      maskWalkAligned ms (substringReplacementSuccess q m.matchStr mask).2
        (off + (mask.length : Int) - (m.matchStr.length : Int)) st'

/-- The character shape of the WikiData identifiers and mask tokens handled
by the answer-masking loop: a leading `Q` or `P` followed by decimal
digits. -/
def QPShape (l : List Char) : Prop :=
  ∃ c ds, l = c :: ds ∧ (c = 'Q' ∨ c = 'P') ∧ ∀ d ∈ ds, d.isDigit

/-- The set of 0-based positions of `s` at which `pat` occurs (the proof
measure for the answer-masking loop). -/
def occSet (pat s : List Char) : Finset ℕ :=
  (Finset.range (s.length + 1)).filter (fun q => pat <+: s.drop q)

/-! ## Helper lemmas -/

theorem dsAuxPairs_eq_nil (S : List Char) : dsAuxPairs S = [] := by
  unfold dsAuxPairs
  have h : (-(S.length : Int)).toNat = 0 := by omega
  rw [h]
  rfl

theorem bind_ok {α β : Type} (a : α) (f : α → Except Err β) :
    (Except.ok a >>= f) = f a := rfl

theorem bind_error {α β : Type} (e : Err) (f : α → Except Err β) :
    ((Except.error e : Except Err α) >>= f) = .error e := rfl

theorem charAt_zero (str : List Char) (h : 0 < str.length) :
    SuffixTreeDS.charAt str 0 = .ok (str.get ⟨0, h⟩) := by
  unfold SuffixTreeDS.charAt
  rw [dif_pos ⟨le_refl 0, by simpa using h⟩]
  rfl

theorem mkSuffixTreeDS_eq (str : List Char) (h : str ≠ []) :
    mkSuffixTreeDS str = .ok ⟨str, #[⟨[], .aux, .aux⟩], [], .null, 0⟩ := by
  have hlen : 0 < str.length := List.length_pos.mpr h
  unfold mkSuffixTreeDS
  rw [dsAuxPairs_eq_nil, charAt_zero str hlen]
  rfl

theorem testAndSplit_null_gt (T : SuffixTreeDS) (k p : Int) (t : Char)
    (h : ¬ k ≤ p) : T.testAndSplit .null k p t = .error .nullDeref := by
  unfold SuffixTreeDS.testAndSplit
  rw [if_neg h]
  rfl

theorem update_null_err (T : SuffixTreeDS) (p : Int) (c : Char)
    (hch : SuffixTreeDS.charAt T.str (p - 1) = .ok c) (hk : ¬ (1 : Int) ≤ p - 1) :
    T.update .null 1 p = .error .nullDeref := by
  unfold SuffixTreeDS.update
  rw [hch, bind_ok, testAndSplit_null_gt T 1 (p - 1) c hk, bind_error]

theorem construct_error (T : SuffixTreeDS) (hroot : T.rootPtr = .null)
    (h : T.str ≠ []) : T.construct = .error .nullDeref := by
  obtain ⟨c, cs, hcs⟩ : ∃ c cs, T.str = c :: cs := by
    cases hx : T.str with
    | nil => exact absurd hx h
    | cons c cs => exact ⟨c, cs, rfl⟩
  have hlen : 0 < T.str.length := by rw [hcs]; simp
  have hchar : SuffixTreeDS.charAt T.str 0 = .ok (T.str.get ⟨0, hlen⟩) :=
    charAt_zero _ hlen
  unfold SuffixTreeDS.construct
  rw [hroot]
  rw [show T.str.length = cs.length + 1 by rw [hcs]; rfl]
  unfold SuffixTreeDS.constructGo
  rw [if_pos (by omega : (0 : Int) + 1 ≤ (T.str.length : Int))]
  simp only []
  rw [update_null_err _ _ (T.str.get ⟨0, hlen⟩) (by simpa using hchar) (by omega),
    bind_error]

theorem dsLCS_err_of_workable (a b : List Char) (pr : Char × Char)
    (h : workableSeparatorEndSymbolPair a b = some pr) :
    dsLongestCommonSubstring a b = .error .nullDeref := by
  have hne : a ++ [pr.1] ++ b ++ [pr.2] ≠ [] := by simp
  unfold dsLongestCommonSubstring
  rw [h]
  simp only []
  rw [mkSuffixTreeDS_eq _ hne, bind_ok, construct_error _ rfl hne, bind_error]

/-! ## Claim theorems -/

/-- C1: the claim states that for non-empty inputs admitting a usable
separator pair, `longest_common_substring(a, b)` returns a maximum-length
common substring.  In the `cpp-ds-create` source the auxiliary-state
constructor's loop bound is negated (`idx < -static_cast<int>(uni_str.length)`),
so the auxiliary state has no transitions, `state_transition_if_present`
yields an engaged optional holding the null pointer, the tree's root member
is null, and the very first `test_and_split` of `construct` dereferences the
null state: the function faults on every such input and never produces an
LCS. -/
theorem c1_longest_common_substring_always_faults
    (a b : List Char) (h : (workableSeparatorEndSymbolPair a b).isSome) :
    dsLongestCommonSubstring a b = .error .nullDeref := by
  obtain ⟨pr, hpr⟩ := Option.isSome_iff_exists.mp h
  exact dsLCS_err_of_workable a b pr hpr

theorem c1_witness :
    (workableSeparatorEndSymbolPair "ab".data "b".data).isSome = true ∧
    dsLongestCommonSubstring "ab".data "b".data = .error .nullDeref :=
  ⟨by decide, c1_longest_common_substring_always_faults "ab".data "b".data (by decide)⟩

/-- C2: the claim states that after construction the auxiliary state has a
transition `(-j, -j)` to the root for every distinct code point of `S`.  In
`cpp-ds-create` the constructor loop `for (int idx = 0; idx <
-static_cast<int>(uni_str.length); idx++)` never executes, so the auxiliary
transition map is empty for every string — in particular there is no
transition on `'a'` for `S = "a"` — and consequently the tree's root member
is the null pointer; only the root-object suffix link (pointing at the
auxiliary state) is as claimed. -/
theorem c2_auxiliary_state_has_no_transitions :
    (∀ (S : List Char) (c : Char), (dsAuxPairs S).lookup c = none) ∧
    (∃ T, mkSuffixTreeDS "a".data = .ok T ∧ T.auxPairs = [] ∧ T.rootPtr = .null ∧
      (T.states[0]?).map StateData.suffixLink = some .aux) := by
  constructor
  · intro S c
    rw [dsAuxPairs_eq_nil]
    rfl
  · exact ⟨_, mkSuffixTreeDS_eq "a".data (by decide), rfl, rfl, rfl⟩

/-- C9: the claim states that with an empty input the LCS operation reports
the result as absent.  With both inputs empty the pair `('_', '*')` is
selected, the tree over `"_*"` is built, and the broken auxiliary state
makes construction dereference the null root: the code faults instead of
returning absence. -/
theorem c9_empty_inputs_fault_instead_of_absent :
    dsLongestCommonSubstring [] [] = .error .nullDeref :=
  dsLCS_err_of_workable [] [] ('_', '*') (by decide)

/-- C8: the claim's mask-assignment rule (walk the sorted matches; a fresh
entity identifier receives `Q<ent_counter++>` with the counter starting at
0) is what `masked_question_answer_pair` implements — given the chosen match
`"Inception"` for `Q25188`, the walk yields `"Who directed Q0?"` — but the
claim's end-to-end scenario never happens in the source: computing
`LabelMatch` for the scenario requires
`longest_common_substring("Who directed Inception?", "Inception")`, which
faults on the null root. -/
theorem c8_mask_q0_but_pipeline_faults :
    (maskQuestionWalk [⟨"Q25188".data, "Inception".data, (13, 21), 9, 1⟩]
        "Who directed Inception?".data ⟨0, 0, []⟩ =
      .ok ("Who directed Q0?".data, ⟨1, 0, [("Q25188".data, "Q0".data)]⟩)) ∧
    dsLongestCommonSubstring "Who directed Inception?".data "Inception".data =
      .error .nullDeref := by
  constructor
  · decide
  · exact dsLCS_err_of_workable _ _ ('_', '*') (by decide)

/-- C4: the separator/terminator pair used by `longest_common_substring` is
the first of `('_','*'), ('_','$'), ('#','$'), ('&','~')` with neither
character occurring in `a` nor in `b`; when no candidate qualifies the
operation fails (it returns the null value before any tree is built). -/
theorem c4_first_usable_separator_pair (a b : List Char) :
    (∀ pr, workableSeparatorEndSymbolPair a b = some pr →
      separatorPairUsable a b pr = true ∧
      ∃ pre post, separatorEndPairs = pre ++ pr :: post ∧
        ∀ q ∈ pre, separatorPairUsable a b q = false) ∧
    (workableSeparatorEndSymbolPair a b = none →
      (∀ pr ∈ separatorEndPairs, separatorPairUsable a b pr = false) ∧
      dsLongestCommonSubstring a b = .ok none) := by
  constructor
  · intro pr h
    unfold workableSeparatorEndSymbolPair at h
    obtain ⟨hp, pre, post, hsplit, hpre⟩ := List.find?_eq_some.mp h
    exact ⟨hp, pre, post, hsplit, fun q hq => by simpa using hpre q hq⟩
  · intro h
    refine ⟨fun pr hpr => ?_, ?_⟩
    · have h1 := List.find?_eq_none.mp h
      simpa using h1 pr hpr
    · unfold dsLongestCommonSubstring
      rw [h]

theorem bestLabelMatch_cons (fm c : LabelMatch) (t : List LabelMatch) :
    bestLabelMatch fm (c :: t) =
      bestLabelMatch (if isBetterMatchingLabelThan c fm then c else fm) t := by
  unfold bestLabelMatch
  rw [List.foldl_cons]

theorem bestLabelMatch_mem (fm : LabelMatch) (rms : List LabelMatch) :
    bestLabelMatch fm rms = fm ∨ bestLabelMatch fm rms ∈ rms := by
  induction rms generalizing fm with
  | nil => exact Or.inl rfl
  | cons c t ih =>
    rw [bestLabelMatch_cons]
    by_cases hc : isBetterMatchingLabelThan c fm
    · rw [if_pos hc]
      rcases ih c with h | h
      · exact Or.inr (by rw [h]; exact List.mem_cons_self c t)
      · exact Or.inr (List.mem_cons_of_mem c h)
    · rw [if_neg hc]
      rcases ih fm with h | h
      · exact Or.inl h
      · exact Or.inr (List.mem_cons_of_mem c h)

theorem le_bestLabelMatch (fm : LabelMatch) (rms : List LabelMatch) :
    ∀ lm, (lm = fm ∨ lm ∈ rms) →
      lm.fractionMatched ≤ (bestLabelMatch fm rms).fractionMatched := by
  induction rms generalizing fm with
  | nil =>
    intro lm hlm
    rcases hlm with h | h
    · rw [h]; exact le_refl _
    · exact absurd h (List.not_mem_nil lm)
  | cons c t ih =>
    intro lm hlm
    rw [bestLabelMatch_cons]
    have hhead : fm.fractionMatched ≤
        (if isBetterMatchingLabelThan c fm then c else fm).fractionMatched := by
      by_cases hc : isBetterMatchingLabelThan c fm
      · rw [if_pos hc]
        have : fm.fractionMatched < c.fractionMatched := by
          simpa [isBetterMatchingLabelThan] using hc
        exact le_of_lt this
      · rw [if_neg hc]
    have hcand : c.fractionMatched ≤
        (if isBetterMatchingLabelThan c fm then c else fm).fractionMatched := by
      by_cases hc : isBetterMatchingLabelThan c fm
      · rw [if_pos hc]
      · rw [if_neg hc]
        have : ¬ fm.fractionMatched < c.fractionMatched := by
          simpa [isBetterMatchingLabelThan] using hc
        exact le_of_not_lt this
    rcases hlm with h | h
    · rw [h]
      exact le_trans hhead (ih _ _ (Or.inl rfl))
    · rcases List.mem_cons.mp h with h | h
      · rw [h]
        exact le_trans hcand (ih _ _ (Or.inl rfl))
      · exact ih _ lm (Or.inr h)

/-- C6 counterexample: the claim requires that, for threshold `θ = 0`, an
entity all of whose labels have a zero-length LCS against the question
fails.  `selected_label_for_entity_or_property` accepts exactly when the
best fraction is `≥ θ`, with no non-zero requirement, so at `θ = 0` the
zero-scoring entity is accepted with an empty match instead of failing. -/
theorem c6_counterexample_zero_score_accepted :
    selectedLabelForEntityOrProperty "xy".data "Q1".data [("ab".data, none)] 0 =
      .ok (some ("Q1".data, [])) ∧
    mkLabelMatch "xy".data "ab".data "Q1".data none =
      .ok ⟨"Q1".data, [], (-1, -1), 0, 0⟩ ∧
    (.ok (some ("Q1".data, ([] : List Char))) ≠
      (.ok none : Except Err (Option (List Char × List Char)))) := by
  have hm : mkLabelMatch "xy".data "ab".data "Q1".data none =
      .ok ⟨"Q1".data, [], (-1, -1), 0, 0⟩ := by
    unfold mkLabelMatch
    simp [zero_div]
  refine ⟨?_, hm, by decide⟩
  unfold selectedLabelForEntityOrProperty
  simp only []
  rw [hm, bind_ok, List.mapM_nil, pure_bind]
  simp [bestLabelMatch]

/-- C6 (amended): an entity with a non-empty label list is accepted exactly
when the best score over its candidate labels is at least `θ`; the chosen
match is one of the candidates and its fraction is maximal among them.
(The claim's extra "and is non-zero" condition is not present in the code:
at `θ = 0` an all-zero entity is accepted, see the counterexample.) -/
theorem c6_amended_accept_iff_best_reaches_threshold
    (question entOrPrp : List Char) (lw : List Char × Option (List Char))
    (lws : List (List Char × Option (List Char))) (θ : ℚ)
    (fm : LabelMatch) (rms : List LabelMatch)
    (hfm : mkLabelMatch question lw.1 entOrPrp lw.2 = .ok fm)
    (hrms : lws.mapM (fun p => mkLabelMatch question p.1 entOrPrp p.2) = .ok rms) :
    (selectedLabelForEntityOrProperty question entOrPrp (lw :: lws) θ =
      .ok (if θ ≤ (bestLabelMatch fm rms).fractionMatched then
        some (entOrPrp, (bestLabelMatch fm rms).matchStr) else none)) ∧
    ((bestLabelMatch fm rms) = fm ∨ (bestLabelMatch fm rms) ∈ rms) ∧
    (∀ lm, (lm = fm ∨ lm ∈ rms) →
      lm.fractionMatched ≤ (bestLabelMatch fm rms).fractionMatched) := by
  refine ⟨?_, bestLabelMatch_mem fm rms, le_bestLabelMatch fm rms⟩
  unfold selectedLabelForEntityOrProperty
  simp only []
  rw [hfm, bind_ok, hrms, bind_ok]
  by_cases hθ : θ ≤ (bestLabelMatch fm rms).fractionMatched
  · rw [if_pos hθ, if_pos hθ]
  · rw [if_neg hθ, if_neg hθ]

theorem c6_amended_witness :
    selectedLabelForEntityOrProperty "abc".data "Q1".data
      [("ab".data, some "ab".data), ("xyz".data, none)] 0 =
      .ok (some ("Q1".data, "ab".data)) := by
  have hfm : mkLabelMatch "abc".data "ab".data "Q1".data (some "ab".data) =
      .ok ⟨"Q1".data, "ab".data, (0, 1), 2, 1⟩ := by
    have hb : indexBoundsOfSubstringInString "abc".data "ab".data = some (0, 1) := by
      decide
    unfold mkLabelMatch
    simp only []
    rw [hb]
    simp only [optValue, bind_ok]
    have hl : ("ab".data.length : ℚ) = 2 := by norm_num [show "ab".data.length = 2 by decide]
    norm_num [hl, show "ab".data.length = 2 by decide]
  have hrm : [("xyz".data, (none : Option (List Char)))].mapM
      (fun p => mkLabelMatch "abc".data p.1 "Q1".data p.2) =
      .ok [⟨"Q1".data, [], (-1, -1), 0, 0⟩] := by
    have hm : mkLabelMatch "abc".data "xyz".data "Q1".data none =
        .ok ⟨"Q1".data, [], (-1, -1), 0, 0⟩ := by
      unfold mkLabelMatch
      simp [zero_div]
    rw [List.mapM_cons, hm]
    rfl
  have h := c6_amended_accept_iff_best_reaches_threshold "abc".data "Q1".data
    ("ab".data, some "ab".data) [("xyz".data, none)] 0
    ⟨"Q1".data, "ab".data, (0, 1), 2, 1⟩ [⟨"Q1".data, [], (-1, -1), 0, 0⟩]
    hfm hrm
  rw [h.1]
  have hbest : bestLabelMatch ⟨"Q1".data, "ab".data, (0, 1), 2, 1⟩
      [⟨"Q1".data, [], (-1, -1), 0, 0⟩] = ⟨"Q1".data, "ab".data, (0, 1), 2, 1⟩ := by
    rw [bestLabelMatch_cons]
    have : isBetterMatchingLabelThan ⟨"Q1".data, [], (-1, -1), 0, 0⟩
        ⟨"Q1".data, "ab".data, (0, 1), 2, 1⟩ = false := by
      simp [isBetterMatchingLabelThan]
    rw [this]
    rfl
  rw [hbest]
  norm_num

theorem collisionPresent_eq :
    ∀ ms : List LabelMatch,
      collisionPresentInLabelMatches ms =
        ((ms.zip ms.tail).any fun mm => mm.2.bounds.1 ≤ mm.1.bounds.2)
  | [] => rfl
  | [_] => rfl
  | _ :: _ :: _ => rfl

theorem collision_false_iff_chain (ms : List LabelMatch) :
    collisionPresentInLabelMatches ms = false ↔
      List.Chain' (fun a b => a.bounds.2 < b.bounds.1) ms := by
  rw [collisionPresent_eq]
  induction ms with
  | nil => simp
  | cons a t ih =>
    cases t with
    | nil => simp
    | cons b t' =>
      simp only [List.tail_cons, List.zip_cons_cons, List.any_cons,
        Bool.or_eq_false_iff, decide_eq_false_iff_not, not_le,
        List.chain'_cons] at *
      exact and_congr Iff.rfl ih

theorem chain_iff_pairwise_of_sorted (ms : List LabelMatch)
    (hs : List.Sorted lexLeBounds ms) :
    List.Chain' (fun a b => a.bounds.2 < b.bounds.1) ms ↔
      List.Pairwise (fun a b => a.bounds.2 < b.bounds.1) ms := by
  induction ms with
  | nil => simp
  | cons a t ih =>
    have hs' : List.Sorted lexLeBounds t := (List.pairwise_cons.mp hs).2
    cases t with
    | nil => simp
    | cons b t' =>
      rw [List.chain'_cons, List.pairwise_cons, ih hs']
      constructor
      · rintro ⟨hab, hbt⟩
        refine ⟨?_, hbt⟩
        intro c hc
        rcases List.mem_cons.mp hc with h | h
        · rw [h]; exact hab
        · have hbc : lexLeBounds b c := (List.pairwise_cons.mp hs').1 c h
          have : b.bounds.1 ≤ c.bounds.1 := by
            rcases hbc with h1 | ⟨h1, _⟩
            · exact le_of_lt h1
            · exact le_of_eq h1
          exact lt_of_lt_of_le hab this
      · rintro ⟨hall, hbt⟩
        exact ⟨hall b (List.mem_cons_self b t'), hbt⟩

/-- C5: on the sorted chosen matches, the adjacent-pair scan of
`collision_present_in_label_matches` reports a collision exactly when some
earlier match's inclusive end index reaches a later match's start index
(i.e. some two chosen inclusive ranges overlap); consequently, when it
reports no collision — the only case in which
`masked_question_answer_pair` proceeds to mask — the chosen ranges are
pairwise non-overlapping. -/
theorem c5_collision_iff_ranges_overlap (ms : List LabelMatch)
    (hs : List.Sorted lexLeBounds ms) :
    (collisionPresentInLabelMatches ms = true ↔
      ¬ List.Pairwise (fun a b => a.bounds.2 < b.bounds.1) ms) ∧
    (collisionPresentInLabelMatches ms = false ↔
      List.Pairwise (fun a b => a.bounds.2 < b.bounds.1) ms) := by
  have h2 := (collision_false_iff_chain ms).trans (chain_iff_pairwise_of_sorted ms hs)
  refine ⟨⟨fun h hp => ?_, fun hp => ?_⟩, h2⟩
  · rw [h2.mpr hp] at h
    cases h
  · cases hcol : collisionPresentInLabelMatches ms with
    | true => rfl
    | false => exact absurd (h2.mp hcol) hp

theorem c5_witness :
    List.Sorted lexLeBounds
      [⟨"Q1".data, "aa".data, (0, 2), 1, 1⟩, ⟨"Q2".data, "b".data, (2, 3), 1, 1⟩] ∧
    collisionPresentInLabelMatches
      [⟨"Q1".data, "aa".data, (0, 2), 1, 1⟩, ⟨"Q2".data, "b".data, (2, 3), 1, 1⟩] = true := by
  have hs : List.Sorted lexLeBounds
      [⟨"Q1".data, "aa".data, (0, 2), 1, 1⟩, ⟨"Q2".data, "b".data, (2, 3), 1, 1⟩] := by
    constructor
    · intro b hb
      simp only [List.mem_singleton] at hb
      rw [hb]
      exact Or.inl (by norm_num)
    · simp
  refine ⟨hs, (c5_collision_iff_ranges_overlap _ hs).1.mpr ?_⟩
  intro hp
  have := (List.pairwise_cons.mp hp).1 _ (List.mem_singleton.mpr rfl)
  norm_num at this

/-- C7 counterexample: two legitimately chosen matches (bounds are the
first occurrences in the question, sorted, collision-free), for which the
code's masked question differs from the claim's recorded-range
substitution.  `mask_single_entity_or_property_in_question` replaces the
*first occurrence* of the matched substring in the evolving question; here
the mask `Q0` substituted for `"ab"` creates an earlier occurrence of
`"0 c"`, so the second replacement lands at position 1 instead of the
recorded range `(4, 6)`, producing `"QQ10 c"` where the claim demands
`"Q0 cQ1"`. -/
theorem c7_counterexample_first_occurrence_beats_recorded_range :
    indexBoundsOfSubstringInString "ab c0 c".data "ab".data = some (0, 1) ∧
    indexBoundsOfSubstringInString "ab c0 c".data "0 c".data = some (4, 6) ∧
    List.Sorted lexLeBounds
      [⟨"Q5".data, "ab".data, (0, 1), 2, 1⟩, ⟨"Q7".data, "0 c".data, (4, 6), 3, 1⟩] ∧
    collisionPresentInLabelMatches
      [⟨"Q5".data, "ab".data, (0, 1), 2, 1⟩, ⟨"Q7".data, "0 c".data, (4, 6), 3, 1⟩] = false ∧
    maskQuestionWalk
      [⟨"Q5".data, "ab".data, (0, 1), 2, 1⟩, ⟨"Q7".data, "0 c".data, (4, 6), 3, 1⟩]
      "ab c0 c".data ⟨0, 0, []⟩ =
      .ok ("QQ10 c".data,
        ⟨2, 0, [("Q5".data, "Q0".data), ("Q7".data, "Q1".data)]⟩) ∧
    specMaskedQuestion [((0, 1), "Q0".data), ((4, 6), "Q1".data)] "ab c0 c".data =
      "Q0 cQ1".data ∧
    "QQ10 c".data ≠ "Q0 cQ1".data := by
  refine ⟨by decide, by decide, ?_, by decide, by decide, by decide, by decide⟩
  constructor
  · intro b hb
    simp only [List.mem_singleton] at hb
    rw [hb]
    exact Or.inl (by norm_num)
  · simp

theorem maskWalk_eq_spec_of_aligned :
    ∀ (ms : List LabelMatch) (q : List Char) (off : Int) (st : MaskState),
      maskWalkAligned ms q off st = true →
      ∃ prs st', assignedBoundsMasks ms st = .ok (prs, st') ∧
        maskQuestionWalk ms q st = .ok (specMaskFold prs q off, st') := by
  intro ms
  induction ms with
  | nil => exact fun q off st _ => ⟨[], st, rfl, rfl⟩
  | cons m t ih =>
    intro q off st h
    unfold maskWalkAligned at h
    cases hmf : maskFor st m with
    | error e => rw [hmf] at h; cases h
    | ok pr =>
      obtain ⟨mask, st'⟩ := pr
      rw [hmf] at h
      simp only [Bool.and_eq_true, decide_eq_true_eq] at h
      obtain ⟨⟨⟨⟨hne, hb2⟩, hpos⟩, hocc⟩, hrest⟩ := h
      obtain ⟨prs, st'', hassign, hwalk⟩ := ih _ _ _ hrest
      have hlen : 1 ≤ m.matchStr.length := List.length_pos.mpr hne
      have hsub : (substringReplacementSuccess q m.matchStr mask).2 =
          List.take (m.bounds.1 + off).toNat q ++ mask ++
            List.drop ((m.bounds.1 + off).toNat + m.matchStr.length) q := by
        unfold substringReplacementSuccess replaceFirst
        rw [hocc]
        rfl
      refine ⟨(m.bounds, mask) :: prs, st'', ?_, ?_⟩
      · unfold assignedBoundsMasks
        rw [hmf, bind_ok]
        simp only []
        rw [hassign, bind_ok]
      · rw [hsub] at hwalk
        unfold maskQuestionWalk maskSingleEntityOrPropertyInQuestion
        rw [hmf, bind_ok]
        simp only []
        rw [bind_ok]
        rw [hsub]
        unfold specMaskFold
        simp only []
        have h1 : ((m.bounds.2 + off).toNat + 1) =
            (m.bounds.1 + off).toNat + m.matchStr.length := by omega
        have h2 : off + (mask.length : Int) - (m.bounds.2 - m.bounds.1 + 1) =
            off + (mask.length : Int) - (m.matchStr.length : Int) := by omega
        rw [h1, h2]
        exact hwalk

theorem assignedBoundsMasks_fst :
    ∀ (ms : List LabelMatch) (st : MaskState) (prs : List ((Int × Int) × List Char))
      (st' : MaskState), assignedBoundsMasks ms st = .ok (prs, st') →
      prs.map Prod.fst = ms.map LabelMatch.bounds := by
  intro ms
  induction ms with
  | nil =>
    intro st prs st' h
    cases h
    rfl
  | cons m t ih =>
    intro st prs st' h
    unfold assignedBoundsMasks at h
    cases hmf : maskFor st m with
    | error e => rw [hmf] at h; cases h
    | ok pr =>
      obtain ⟨mask, stm⟩ := pr
      rw [hmf, bind_ok] at h
      simp only [] at h
      cases hrec : assignedBoundsMasks t stm with
      | error e => rw [hrec] at h; cases h
      | ok prsst =>
        obtain ⟨prs₁, st₁⟩ := prsst
        rw [hrec, bind_ok] at h
        simp only [Except.ok.injEq, Prod.mk.injEq] at h
        obtain ⟨h1, _⟩ := h
        rw [← h1]
        simp only [List.map_cons, List.cons.injEq]
        exact ⟨trivial, ih _ _ _ hrec⟩

/-- C7 (amended): the code masks the question by replacing, for each chosen
match in sorted order, the *first occurrence* of the matched substring in
the evolving question with the mask token assigned to its
entity/property; when every such first occurrence coincides with the
match's recorded range shifted by the cumulative length change of the
earlier replacements (the `maskWalkAligned` condition), the result equals
the claim's recorded-range substitution, in which every character outside
the chosen ranges is unchanged.  (Without that condition the claim fails,
see the counterexample.) -/
theorem c7_amended_masking_fidelity_under_alignment
    (ms : List LabelMatch) (q : List Char)
    (h : maskWalkAligned ms q 0 ⟨0, 0, []⟩ = true) :
    ∃ prs st', assignedBoundsMasks ms ⟨0, 0, []⟩ = .ok (prs, st') ∧
      maskQuestionWalk ms q ⟨0, 0, []⟩ = .ok (specMaskedQuestion prs q, st') ∧
      prs.map Prod.fst = ms.map LabelMatch.bounds := by
  obtain ⟨prs, st', hassign, hwalk⟩ := maskWalk_eq_spec_of_aligned ms q 0 ⟨0, 0, []⟩ h
  exact ⟨prs, st', hassign, hwalk, assignedBoundsMasks_fst ms _ prs st' hassign⟩

theorem c7_amended_witness :
    maskWalkAligned
      [⟨"Q5".data, "ab".data, (0, 1), 2, 1⟩, ⟨"P6".data, "cd".data, (3, 4), 2, 1⟩]
      "ab cd".data 0 ⟨0, 0, []⟩ = true ∧
    ∃ prs st',
      assignedBoundsMasks
        [⟨"Q5".data, "ab".data, (0, 1), 2, 1⟩, ⟨"P6".data, "cd".data, (3, 4), 2, 1⟩]
        ⟨0, 0, []⟩ = .ok (prs, st') ∧
      maskQuestionWalk
        [⟨"Q5".data, "ab".data, (0, 1), 2, 1⟩, ⟨"P6".data, "cd".data, (3, 4), 2, 1⟩]
        "ab cd".data ⟨0, 0, []⟩ = .ok (specMaskedQuestion prs "ab cd".data, st') ∧
      prs.map Prod.fst =
        [⟨"Q5".data, "ab".data, (0, 1), 2, 1⟩,
          ⟨"P6".data, "cd".data, (3, 4), 2, 1⟩].map LabelMatch.bounds :=
  ⟨by decide, c7_amended_masking_fidelity_under_alignment _ _ (by decide)⟩

theorem deref_node (T : SuffixTreeDS) (s : Nat) (hs : s < T.states.size) :
    T.deref (.node s) = .ok (s, T.states.get ⟨s, hs⟩) := by
  unfold SuffixTreeDS.deref
  simp only []
  rw [dif_pos hs]

theorem getTransitionP_node (T : SuffixTreeDS) (s : Nat) (hs : s < T.states.size)
    (cp : Char) (tr : TransData)
    (htr : (T.states.get ⟨s, hs⟩).trans.lookup cp = some tr) :
    T.getTransitionP (.node s) cp = .ok tr := by
  unfold SuffixTreeDS.getTransitionP
  simp only []
  rw [deref_node T s hs, bind_ok]
  unfold SuffixTreeDS.getTransition
  rw [htr]

theorem lookup_filter_ne (l : List (Char × TransData)) (c : Char) :
    (l.filter (fun p => p.1 ≠ c)).lookup c = none := by
  induction l with
  | nil => rfl
  | cons a t ih =>
    by_cases h : a.1 = c
    · simpa [List.filter_cons, h] using ih
    · simp only [List.filter_cons, decide_not] at *
      rw [if_pos (by simpa using h)]
      have hbeq : (c == a.1) = false := beq_eq_false_iff_ne.mpr (fun hc => h hc.symm)
      simp only [List.lookup, hbeq]
      exact ih

theorem size_set! {α : Type} (a : Array α) (i : Nat) (v : α) :
    (a.set! i v).size = a.size :=
  Array.size_setD a i v

theorem get_set!_eq {α : Type} (a : Array α) (i : Nat) (v : α) (hi : i < a.size)
    (h2 : i < (a.set! i v).size) : (a.set! i v).get ⟨i, h2⟩ = v := by
  simp only [Array.get_eq_getElem]
  unfold Array.set! Array.setD
  split
  · exact Array.get_set_eq _ _ _
  · next h => exact absurd hi h

theorem get_set!_ne {α : Type} (a : Array α) (i : Nat) (v : α) (j : Nat)
    (hj : j < a.size) (hne : i ≠ j) (h2 : j < (a.set! i v).size) :
    (a.set! i v).get ⟨j, h2⟩ = a.get ⟨j, hj⟩ := by
  simp only [Array.get_eq_getElem]
  unfold Array.set! Array.setD
  split
  · exact Array.get_set_ne _ _ _ hj hne
  · rfl

theorem get?_set!_eq {α : Type} (a : Array α) (i : Nat) (v : α) (hi : i < a.size) :
    (a.set! i v)[i]? = some v := by
  unfold Array.set! Array.setD
  split
  · exact Array.getElem?_set_eq _ _ _
  · next h => exact absurd hi h

theorem get?_set!_ne {α : Type} (a : Array α) (i : Nat) (v : α) (j : Nat)
    (hne : i ≠ j) : (a.set! i v)[j]? = a[j]? := by
  unfold Array.set! Array.setD
  split
  · exact Array.getElem?_set_ne _ _ _ hne
  · rfl

theorem deref_run (T : SuffixTreeDS) (s : Nat) (hs : s < T.states.size)
    (sd : StateData) (hsd : T.states.get ⟨s, hs⟩ = sd) :
    T.deref (.node s) = .ok (s, sd) := by
  rw [deref_node T s hs, hsd]

theorem setTransition_run (T : SuffixTreeDS) (s : Nat) (hs : s < T.states.size)
    (sd : StateData) (hsd : T.states.get ⟨s, hs⟩ = sd)
    (left : Int) (right : RightPtr) (child : Nat) (cp : Char)
    (hch : SuffixTreeDS.charAt T.str (left - 1) = .ok cp)
    (hno : sd.trans.lookup cp = none) :
    T.setTransition s left right child =
      .ok { T with states := T.states.set! s ({ sd with trans := sd.trans ++ [(cp, ⟨left, right, child⟩)] }) } := by
  unfold SuffixTreeDS.setTransition
  rw [hch, bind_ok, deref_run T s hs sd hsd, bind_ok]
  simp only []
  unfold SuffixTreeDS.hasTransition
  rw [hno]
  rfl

theorem get_push_lt' {α : Type} (a : Array α) (x : α) (s : Nat) (hs : s < a.size)
    (h2 : s < (a.push x).size) : (a.push x).get ⟨s, h2⟩ = a.get ⟨s, hs⟩ := by
  simp only [Array.get_eq_getElem]
  exact Array.getElem_push_lt a x s hs

theorem get_push_eq' {α : Type} (a : Array α) (x : α)
    (h2 : a.size < (a.push x).size) : (a.push x).get ⟨a.size, h2⟩ = x := by
  simp only [Array.get_eq_getElem]
  exact Array.getElem_push_eq a x

set_option maxHeartbeats 2000000 in
theorem internalSplit_run (T : SuffixTreeDS) (s : Nat) (hs : s < T.states.size)
    (w : Int) (cp cp₂ : Char) (sd : StateData) (tr : TransData)
    (hsd : T.states.get ⟨s, hs⟩ = sd)
    (hch : SuffixTreeDS.charAt T.str (tr.left - 1) = .ok cp)
    (htr : sd.trans.lookup cp = some tr)
    (hch₂ : SuffixTreeDS.charAt T.str w = .ok cp₂) :
    T.internalSplit s tr.left (.owned w) =
      .ok (T.states.size,
        { T with states := (((T.states.push ⟨[], .node s, .null⟩).set! T.states.size ⟨[(cp₂, ⟨w + 1, tr.right, tr.child⟩)], .node s, .null⟩).set! s (SuffixTreeDS.eraseTransition sd cp)).set! s ⟨(SuffixTreeDS.eraseTransition sd cp).trans ++ [(cp, ⟨tr.left, .owned w, T.states.size⟩)], (SuffixTreeDS.eraseTransition sd cp).parent, (SuffixTreeDS.eraseTransition sd cp).suffixLink⟩ }) := by
  unfold SuffixTreeDS.internalSplit
  simp only []
  rw [hch, bind_ok, deref_run T s hs sd hsd, bind_ok]
  simp only []
  unfold SuffixTreeDS.getTransition
  rw [htr, bind_ok]
  simp only [SuffixTreeDS.rightVal]
  rw [show tr.left + w - tr.left + 1 = w + 1 from by ring]
  have hpush : T.states.size < (T.states.push (⟨[], .node s, .null⟩ : StateData)).size := by
    simp
  have hget₁ : (T.states.push (⟨[], .node s, .null⟩ : StateData)).get
      ⟨T.states.size, hpush⟩ = ⟨[], .node s, .null⟩ :=
    get_push_eq' _ _ hpush
  have hset₁ := setTransition_run { T with states := T.states.push ⟨[], .node s, .null⟩ }
    T.states.size hpush ⟨[], .node s, .null⟩ hget₁ (w + 1) tr.right tr.child cp₂
    (by rw [show w + 1 - 1 = w from by ring]; exact hch₂) rfl
  rw [hset₁, bind_ok]
  have hs₂ : s < (((T.states.push ⟨[], .node s, .null⟩).set! T.states.size
      (⟨[] ++ [(cp₂, ⟨w + 1, tr.right, tr.child⟩)], .node s, .null⟩ : StateData))).size := by
    rw [size_set!]
    simpa using Nat.lt_succ_of_lt hs
  have hsp : s < (T.states.push (⟨[], .node s, .null⟩ : StateData)).size := by
    simpa using Nat.lt_succ_of_lt hs
  have hget₂ : (((T.states.push ⟨[], .node s, .null⟩).set! T.states.size
      (⟨[] ++ [(cp₂, ⟨w + 1, tr.right, tr.child⟩)], .node s, .null⟩ : StateData))).get
      ⟨s, hs₂⟩ = sd := by
    rw [get_set!_ne _ _ _ _ hsp (Nat.ne_of_gt hs), get_push_lt' _ _ _ hs, hsd]
  rw [deref_run _ s hs₂ sd hget₂, bind_ok]
  simp only []
  rw [show tr.left + w - tr.left = w from by ring]
  have hs₃ : s < ((((T.states.push ⟨[], .node s, .null⟩).set! T.states.size
      (⟨[] ++ [(cp₂, ⟨w + 1, tr.right, tr.child⟩)], .node s, .null⟩ : StateData)).set! s
      (SuffixTreeDS.eraseTransition sd cp))).size := by
    rw [size_set!]
    exact hs₂
  have hget₃ : ((((T.states.push ⟨[], .node s, .null⟩).set! T.states.size
      (⟨[] ++ [(cp₂, ⟨w + 1, tr.right, tr.child⟩)], .node s, .null⟩ : StateData)).set! s
      (SuffixTreeDS.eraseTransition sd cp))).get ⟨s, hs₃⟩ =
      SuffixTreeDS.eraseTransition sd cp :=
    get_set!_eq _ s _ hs₂ hs₃
  have hset₂ := setTransition_run { T with states := ((T.states.push ⟨[], .node s, .null⟩).set! T.states.size ⟨[] ++ [(cp₂, ⟨w + 1, tr.right, tr.child⟩)], .node s, .null⟩).set! s (SuffixTreeDS.eraseTransition sd cp) }
    s hs₃ (SuffixTreeDS.eraseTransition sd cp) hget₃
    tr.left (.owned w) T.states.size cp hch (lookup_filter_ne sd.trans cp)
  rw [hset₂, bind_ok]
  rfl

/-- C3: `test_and_split(s, k, p, t)` behaves as claimed.  With `k > p` it
returns `(s has a transition on t, s)` and leaves the tree unchanged.  With
`k ≤ p`, when the code point at offset `k' + p - k + 1` along the
`S[k]`-transition of `s` equals `t` it returns `(true, s)` and leaves the
tree unchanged; otherwise it splits that transition through a fresh state
`r`: afterwards `s —[k', k'+p-k]→ r —[k'+p-k+1, old_right]→ s'`, the right
pointer of the new `s → r` edge is a bounded owned index (`RightPtr.owned`,
not the shared leaf pointer), and `(false, r)` is returned. -/
theorem c3_test_and_split_cases (T : SuffixTreeDS) (s : Nat) (hs : s < T.states.size)
    (k p : Int) (t t' cp : Char) (sd : StateData) (tr : TransData)
    (hsd : T.states.get ⟨s, hs⟩ = sd) :
    (¬ k ≤ p →
      T.testAndSplit (.node s) k p t =
        .ok (SuffixTreeDS.hasTransition sd t, .node s, T)) ∧
    (k ≤ p →
      SuffixTreeDS.charAt T.str (k - 1) = .ok cp →
      sd.trans.lookup cp = some tr →
      SuffixTreeDS.charAt T.str (tr.left + p - k) = .ok t →
      T.testAndSplit (.node s) k p t = .ok (true, .node s, T)) ∧
    (k ≤ p →
      SuffixTreeDS.charAt T.str (k - 1) = .ok cp →
      sd.trans.lookup cp = some tr →
      SuffixTreeDS.charAt T.str (tr.left + p - k) = .ok t' →
      t ≠ t' →
      SuffixTreeDS.charAt T.str (tr.left - 1) = .ok cp →
      ∃ T', T.testAndSplit (.node s) k p t = .ok (false, .node T.states.size, T') ∧
        T'.str = T.str ∧ T'.e = T.e ∧ T'.auxPairs = T.auxPairs ∧
        T'.rootPtr = T.rootPtr ∧
        T'.states.size = T.states.size + 1 ∧
        (T'.states[s]?).map (fun sd' => sd'.trans.lookup cp) =
          some (some ⟨tr.left, .owned (tr.left + p - k), T.states.size⟩) ∧
        (T'.states[T.states.size]?).map StateData.trans =
          some [(t', ⟨tr.left + p - k + 1, tr.right, tr.child⟩)]) := by
  refine ⟨?_, ?_, ?_⟩
  · intro hk
    unfold SuffixTreeDS.testAndSplit
    rw [if_neg hk]
    unfold SuffixTreeDS.hasTransitionP
    simp only []
    rw [deref_run T s hs sd hsd, bind_ok, bind_ok]
  · intro hk hcp htr hnext
    unfold SuffixTreeDS.testAndSplit
    rw [if_pos hk, hcp, bind_ok,
      getTransitionP_node T s hs cp tr (by rw [hsd]; exact htr), bind_ok,
      hnext, bind_ok, if_pos rfl]
  · intro hk hcp htr hnext hne hinv
    unfold SuffixTreeDS.testAndSplit
    rw [if_pos hk, hcp, bind_ok,
      getTransitionP_node T s hs cp tr (by rw [hsd]; exact htr), bind_ok,
      hnext, bind_ok, if_neg hne]
    unfold SuffixTreeDS.internalSplitP
    simp only []
    rw [internalSplit_run T s hs (tr.left + p - k) cp t' sd tr hsd hinv htr hnext,
      bind_ok]
    simp only []
    refine ⟨_, rfl, rfl, rfl, rfl, rfl, ?_, ?_, ?_⟩
    · simp only [size_set!, Array.size_push]
    · have hlt : s < (((T.states.push ⟨[], .node s, .null⟩).set! T.states.size
          (⟨[(t', ⟨tr.left + p - k + 1, tr.right, tr.child⟩)], .node s, .null⟩ :
            StateData)).set! s (SuffixTreeDS.eraseTransition sd cp)).size := by
        simp only [size_set!, Array.size_push]
        exact Nat.lt_succ_of_lt hs
      rw [get?_set!_eq _ s _ hlt]
      simp [List.lookup_append, lookup_filter_ne, List.lookup]
      refine Or.inr ?_
      intro a b hmem hca
      have h' : (a, b) ∈ sd.trans ∧ ¬ a = cp := by
        simpa [SuffixTreeDS.eraseTransition] using hmem
      exact h'.2 hca.symm
    · rw [get?_set!_ne _ s _ _ (Nat.ne_of_lt hs),
        get?_set!_ne _ s _ _ (Nat.ne_of_lt hs),
        get?_set!_eq _ T.states.size _ (by simp)]
      simp

theorem c3_witness :
    ∃ T', SuffixTreeDS.testAndSplit
        ⟨"ab".data, #[⟨[('a', ⟨1, .owned 2, 1⟩)], .aux, .aux⟩, ⟨[], .node 0, .null⟩],
          [], .node 0, 0⟩ (.node 0) 1 1 'x' =
      .ok (false, .node 2, T') ∧
    T'.states.size = 3 ∧
    (T'.states[0]?).map (fun sd' => sd'.trans.lookup 'a') =
      some (some ⟨1, .owned 1, 2⟩) ∧
    (T'.states[2]?).map StateData.trans = some [('b', ⟨2, .owned 2, 1⟩)] := by
  have h := (c3_test_and_split_cases
    ⟨"ab".data, #[⟨[('a', ⟨1, .owned 2, 1⟩)], .aux, .aux⟩, ⟨[], .node 0, .null⟩],
      [], .node 0, 0⟩ 0 (by decide) 1 1 'x' 'b' 'a'
    ⟨[('a', ⟨1, .owned 2, 1⟩)], .aux, .aux⟩ ⟨1, .owned 2, 1⟩ rfl).2.2
    (by decide) (by decide) (by decide) (by decide) (by decide) (by decide)
  obtain ⟨T', hrun, _, _, _, _, hsize, hlook, htrans⟩ := h
  exact ⟨T', hrun, hsize, hlook, htrans⟩

theorem c4_witness :
    separatorPairUsable "abc".data "ab".data ('_', '*') = true ∧
    (∀ pr ∈ separatorEndPairs, separatorPairUsable "_#&*$~".data [] pr = false) ∧
    dsLongestCommonSubstring "_#&*$~".data [] = .ok none := by
  refine ⟨((c4_first_usable_separator_pair "abc".data "ab".data).1 ('_', '*')
    (by decide)).1, ?_, ?_⟩
  · exact ((c4_first_usable_separator_pair "_#&*$~".data []).2 (by decide)).1
  · exact ((c4_first_usable_separator_pair "_#&*$~".data []).2 (by decide)).2

/-! ## C10: termination of the answer-masking replacement loop -/

theorem occ_le_length {pat s : List Char} {q : ℕ} (hpat : pat ≠ [])
    (h : pat <+: s.drop q) : q + pat.length ≤ s.length := by
  have h1 : pat.length ≤ (s.drop q).length := h.length_le
  rw [List.length_drop] at h1
  have h2 : 0 < pat.length := List.length_pos.mpr hpat
  omega

theorem mem_occSet {pat s : List Char} {q : ℕ} (hpat : pat ≠ []) :
    q ∈ occSet pat s ↔ pat <+: s.drop q := by
  unfold occSet
  rw [Finset.mem_filter, Finset.mem_range]
  constructor
  · exact fun h => h.2
  · intro h
    exact ⟨by have := occ_le_length hpat h; omega, h⟩

theorem find_range_min : ∀ {n : ℕ} {f : ℕ → Bool} {p : ℕ},
    (List.range n).find? f = some p →
    f p = true ∧ p < n ∧ ∀ q < p, f q = false := by
  intro n
  induction n with
  | zero => intro f p h; simp [List.range_zero] at h
  | succ m ih =>
    intro f p h
    rw [List.range_succ_eq_map, List.find?_cons] at h
    cases hf0 : f 0 with
    | true =>
      rw [hf0] at h
      cases h
      exact ⟨hf0, by omega, by omega⟩
    | false =>
      rw [hf0] at h
      rw [List.find?_map] at h
      obtain ⟨p', hp', rfl⟩ := Option.map_eq_some'.mp h
      obtain ⟨h1, h2, h3⟩ := ih hp'
      refine ⟨h1, by omega, ?_⟩
      intro q hq
      cases q with
      | zero => exact hf0
      | succ i => exact h3 i (by omega)

theorem firstOccIdx_some_spec {pat s : List Char} {p : ℕ}
    (h : firstOccIdx pat s = some p) :
    pat <+: s.drop p ∧ p ≤ s.length ∧ ∀ q < p, ¬ pat <+: s.drop q := by
  unfold firstOccIdx at h
  obtain ⟨h1, h2, h3⟩ := find_range_min h
  refine ⟨List.isPrefixOf_iff_prefix.mp h1, by omega, fun q hq hc => ?_⟩
  have h4 := h3 q hq
  rw [List.isPrefixOf_iff_prefix.mpr hc] at h4
  exact Bool.noConfusion h4

theorem firstOccIdx_none_spec {pat s : List Char} (hpat : pat ≠ [])
    (h : firstOccIdx pat s = none) : ∀ q, ¬ pat <+: s.drop q := by
  intro q hc
  by_cases hq : q ≤ s.length
  · have h1 := List.find?_eq_none.mp h q (by rw [List.mem_range]; omega)
    simp only [List.isPrefixOf_iff_prefix] at h1
    exact h1 hc
  · have h2 : s.drop q = [] := List.drop_eq_nil_of_le (by omega)
    rw [h2] at hc
    exact hpat (List.prefix_nil.mp hc)

theorem QPShape.ne_nil {l : List Char} (h : QPShape l) : l ≠ [] := by
  obtain ⟨c, ds, rfl, _, _⟩ := h; simp

theorem QPShape.length_pos {l : List Char} (h : QPShape l) : 0 < l.length :=
  List.length_pos.mpr h.ne_nil

theorem QPShape.head_letter {l : List Char} (h : QPShape l)
    (hl : 0 < l.length) : l[0] = 'Q' ∨ l[0] = 'P' := by
  obtain ⟨c, ds, rfl, hc, _⟩ := h
  simpa using hc

theorem QPShape.tail_digit {l : List Char} (h : QPShape l) {j : ℕ}
    (hj : j < l.length) (hj1 : 1 ≤ j) : l[j].isDigit = true := by
  obtain ⟨c, ds, rfl, _, hds⟩ := h
  cases j with
  | zero => omega
  | succ i =>
    simp only [List.getElem_cons_succ]
    exact hds _ (List.getElem_mem _)

theorem letter_not_digit {c : Char} (h : c = 'Q' ∨ c = 'P') :
    c.isDigit = false := by
  rcases h with rfl | rfl <;> decide

theorem occ_in_replaced
    {a idt mask : List Char} {p q : ℕ}
    (hid : QPShape idt) (hmask : QPShape mask)
    (hnc : ¬ idt <+: mask)
    (hp : idt <+: a.drop p)
    (hmin : ∀ r < p, ¬ idt <+: a.drop r)
    (hq : idt <+: (List.take p a ++ mask ++ List.drop (p + idt.length) a).drop q) :
    (q = p ∧ mask.length < idt.length) ∨
    (p + mask.length ≤ q ∧ idt <+: a.drop (q + idt.length - mask.length)) := by
  have hL : 0 < idt.length := hid.length_pos
  have hM : 0 < mask.length := hmask.length_pos
  have hpL : p + idt.length ≤ a.length := occ_le_length hid.ne_nil hp
  have hA : (List.take p a).length = p := by rw [List.length_take]; omega
  have hcases : q + idt.length ≤ p ∨ (q < p ∧ p < q + idt.length) ∨ q = p ∨
      (p < q ∧ q < p + mask.length) ∨ p + mask.length ≤ q := by omega
  rcases hcases with h1 | ⟨h2a, h2b⟩ | h3 | ⟨h4a, h4b⟩ | h5
  · -- occurrence wholly inside the untouched prefix: contradicts minimality of p
    exfalso
    have e1 : (List.take p a ++ mask ++ List.drop (p + idt.length) a).drop q
        = (List.take p a).drop q ++ (mask ++ List.drop (p + idt.length) a) := by
      rw [List.append_assoc, List.drop_append_eq_append_drop, hA,
        show q - p = 0 from by omega, List.drop_zero]
    have e2 : (List.take p a).drop q = (List.drop q a).take (p - q) :=
      List.drop_take p q a
    have hlen2 : ((List.drop q a).take (p - q)).length = p - q := by
      rw [List.length_take, List.length_drop]; omega
    have hkey : idt = (List.drop q a).take idt.length := by
      have h0 := List.prefix_iff_eq_take.mp hq
      rw [e1, e2, List.take_append_eq_append_take, hlen2,
        show idt.length - (p - q) = 0 from by omega, List.take_zero,
        List.append_nil, List.take_take,
        inf_eq_left.mpr (show idt.length ≤ p - q from by omega)] at h0
      exact h0
    exact hmin q (by omega) (List.prefix_iff_eq_take.mpr hkey)
  · -- occurrence straddling the boundary into the mask: digit meets letter
    exfalso
    have e1 : (List.take p a ++ mask ++ List.drop (p + idt.length) a).drop q
        = (List.take p a).drop q ++ (mask ++ List.drop (p + idt.length) a) := by
      rw [List.append_assoc, List.drop_append_eq_append_drop, hA,
        show q - p = 0 from by omega, List.drop_zero]
    have hj : p - q < idt.length := by omega
    have hg := hq.getElem hj
    simp only [e1] at hg
    have hlen3 : ((List.take p a).drop q).length = p - q := by
      rw [List.length_drop, List.length_take]; omega
    rw [List.getElem_append_right hlen3.le] at hg
    simp only [hlen3, Nat.sub_self] at hg
    rw [List.getElem_append_left hM] at hg
    have hd := hid.tail_digit hj (by omega)
    rw [hg, letter_not_digit (hmask.head_letter hM)] at hd
    exact Bool.noConfusion hd
  · -- occurrence exactly at the replacement site
    subst h3
    by_cases hML : mask.length < idt.length
    · exact Or.inl ⟨rfl, hML⟩
    · exfalso
      have e1 : (List.take q a ++ mask ++ List.drop (q + idt.length) a).drop q
          = mask ++ List.drop (q + idt.length) a := by
        rw [List.append_assoc, List.drop_append_eq_append_drop, hA, Nat.sub_self,
          List.drop_zero, List.drop_take, Nat.sub_self, List.take_zero,
          List.nil_append]
      have h0 := List.prefix_iff_eq_take.mp hq
      rw [e1, List.take_append_eq_append_take,
        show idt.length - mask.length = 0 from by omega, List.take_zero,
        List.append_nil] at h0
      have h6 : idt <+: mask := by rw [h0]; exact List.take_prefix _ _
      exact hnc h6
  · -- occurrence starting inside the mask: letter meets digit
    exfalso
    have e1 : (List.take p a ++ mask ++ List.drop (p + idt.length) a).drop q
        = mask.drop (q - p) ++ List.drop (p + idt.length) a := by
      rw [List.append_assoc, List.drop_append_eq_append_drop, hA,
        List.drop_eq_nil_of_le (show (List.take p a).length ≤ q from by
          rw [hA]; omega),
        List.nil_append, List.drop_append_eq_append_drop,
        show q - p - mask.length = 0 from by omega, List.drop_zero]
    have hg := hq.getElem hL
    simp only [e1] at hg
    have hm0 : 0 < (mask.drop (q - p)).length := by rw [List.length_drop]; omega
    rw [List.getElem_append_left hm0, List.getElem_drop] at hg
    simp only [Nat.add_zero] at hg
    have hd := hmask.tail_digit (show q - p < mask.length from by omega)
      (by omega)
    rw [← hg, letter_not_digit (hid.head_letter hL)] at hd
    exact Bool.noConfusion hd
  · -- occurrence wholly inside the untouched suffix
    right
    refine ⟨h5, ?_⟩
    have e1 : (List.take p a ++ mask ++ List.drop (p + idt.length) a).drop q
        = a.drop (q + idt.length - mask.length) := by
      rw [List.drop_append_eq_append_drop,
        List.drop_eq_nil_of_le
          (show (List.take p a ++ mask).length ≤ q from by
            rw [List.length_append, hA]; omega),
        List.nil_append, List.drop_drop]
      congr 1
      rw [List.length_append, hA]
      omega
    rw [e1] at hq
    exact hq

theorem replaced_length_lt {a idt mask : List Char} {p : ℕ}
    (hML : mask.length < idt.length)
    (hple : p + idt.length ≤ a.length) :
    (List.take p a ++ mask ++ List.drop (p + idt.length) a).length < a.length := by
  simp only [List.length_append, List.length_take, List.length_drop]
  omega

theorem replaced_card_lt {a idt mask : List Char} {p : ℕ}
    (hid : QPShape idt) (hmask : QPShape mask)
    (hnc : ¬ idt <+: mask)
    (hML : idt.length ≤ mask.length)
    (hp : idt <+: a.drop p)
    (hmin : ∀ r < p, ¬ idt <+: a.drop r) :
    (occSet idt (List.take p a ++ mask ++ List.drop (p + idt.length) a)).card <
      (occSet idt a).card := by
  have hpmem : p ∈ occSet idt a := (mem_occSet hid.ne_nil).mpr hp
  have hstep : (occSet idt (List.take p a ++ mask ++ List.drop (p + idt.length) a)).card ≤
      ((occSet idt a).erase p).card := by
    apply Finset.card_le_card_of_injOn (fun q => q + idt.length - mask.length)
    · intro q hqmem
      have hq := (mem_occSet hid.ne_nil).mp hqmem
      rcases occ_in_replaced hid hmask hnc hp hmin hq with ⟨_, hlt⟩ | ⟨hge, hocc⟩
      · omega
      · rw [Finset.mem_erase]
        refine ⟨by have := hid.length_pos; omega, ?_⟩
        exact (mem_occSet hid.ne_nil).mpr hocc
    · intro q₁ hq₁ q₂ hq₂ hf
      simp only [] at hf
      have hg₁ := (mem_occSet hid.ne_nil).mp (Finset.mem_coe.mp hq₁)
      have hg₂ := (mem_occSet hid.ne_nil).mp (Finset.mem_coe.mp hq₂)
      rcases occ_in_replaced hid hmask hnc hp hmin hg₁ with ⟨_, hlt⟩ | ⟨hge₁, _⟩
      · omega
      rcases occ_in_replaced hid hmask hnc hp hmin hg₂ with ⟨_, hlt⟩ | ⟨hge₂, _⟩
      · omega
      omega
  have hcard := Finset.card_erase_of_mem hpmem
  have hpos : 0 < (occSet idt a).card := Finset.card_pos.mpr ⟨p, hpmem⟩
  omega

theorem maskAnswerLoop_exit {idt mask a : List Char} {fuel : ℕ}
    (h : firstOccIdx idt a = none) :
    maskAnswerLoop idt mask (fuel + 1) a = some a := by
  have hr : replaceFirst a idt mask = none := by
    unfold replaceFirst; rw [h]; rfl
  simp [maskAnswerLoop, hr]

theorem maskAnswerLoop_step {idt mask a a' : List Char} {fuel : ℕ}
    (h : replaceFirst a idt mask = some a') :
    maskAnswerLoop idt mask (fuel + 1) a = maskAnswerLoop idt mask fuel a' := by
  simp [maskAnswerLoop, h]

theorem terminates_of_short (idt mask : List Char)
    (hid : QPShape idt) (hML : mask.length < idt.length) :
    ∀ n a, a.length ≤ n →
      ∃ fuel res, maskAnswerLoop idt mask fuel a = some res ∧
        firstOccIdx idt res = none := by
  intro n
  induction n with
  | zero =>
    intro a ha
    cases hf : firstOccIdx idt a with
    | none => exact ⟨1, a, maskAnswerLoop_exit hf, hf⟩
    | some p =>
      obtain ⟨hp, _, _⟩ := firstOccIdx_some_spec hf
      have := occ_le_length hid.ne_nil hp
      have := hid.length_pos
      omega
  | succ m ih =>
    intro a ha
    cases hf : firstOccIdx idt a with
    | none => exact ⟨1, a, maskAnswerLoop_exit hf, hf⟩
    | some p =>
      obtain ⟨hp, hple, hmin⟩ := firstOccIdx_some_spec hf
      have hrep : replaceFirst a idt mask =
          some (List.take p a ++ mask ++ List.drop (p + idt.length) a) := by
        unfold replaceFirst; rw [hf]; rfl
      have hlen := replaced_length_lt hML (occ_le_length hid.ne_nil hp)
      obtain ⟨fuel, res, hloop, hres⟩ :=
        ih (List.take p a ++ mask ++ List.drop (p + idt.length) a) (by omega)
      exact ⟨fuel + 1, res, by rw [maskAnswerLoop_step hrep]; exact hloop, hres⟩

theorem terminates_of_long (idt mask : List Char)
    (hid : QPShape idt) (hmask : QPShape mask)
    (hnc : ¬ idt <+: mask) (hML : idt.length ≤ mask.length) :
    ∀ n a, (occSet idt a).card ≤ n →
      ∃ fuel res, maskAnswerLoop idt mask fuel a = some res ∧
        firstOccIdx idt res = none := by
  intro n
  induction n with
  | zero =>
    intro a ha
    cases hf : firstOccIdx idt a with
    | none => exact ⟨1, a, maskAnswerLoop_exit hf, hf⟩
    | some p =>
      obtain ⟨hp, _, _⟩ := firstOccIdx_some_spec hf
      have hpmem : p ∈ occSet idt a := (mem_occSet hid.ne_nil).mpr hp
      have hpos : 0 < (occSet idt a).card := Finset.card_pos.mpr ⟨p, hpmem⟩
      omega
  | succ m ih =>
    intro a ha
    cases hf : firstOccIdx idt a with
    | none => exact ⟨1, a, maskAnswerLoop_exit hf, hf⟩
    | some p =>
      obtain ⟨hp, hple, hmin⟩ := firstOccIdx_some_spec hf
      have hrep : replaceFirst a idt mask =
          some (List.take p a ++ mask ++ List.drop (p + idt.length) a) := by
        unfold replaceFirst; rw [hf]; rfl
      have hcard := replaced_card_lt hid hmask hnc hML hp hmin
      obtain ⟨fuel, res, hloop, hres⟩ :=
        ih (List.take p a ++ mask ++ List.drop (p + idt.length) a) (by omega)
      exact ⟨fuel + 1, res, by rw [maskAnswerLoop_step hrep]; exact hloop, hres⟩

/-- C10: for every answer string, identifier, and mask token of WikiData
shape (`Q`/`P` followed by digits), if the mask does not contain the
identifier as a substring, the loop `while
(substring_replacement_success(a, match.ent_or_prp, mask));` of
`mask_single_entity_or_property_in_answer` terminates, and on termination
the identifier no longer occurs in the answer; conversely, when the
identifier `Q1` receives the mask token `Q1` (the second distinct entity,
with counters starting at 0) and occurs in the raw answer, the loop runs
forever: no amount of fuel makes it stop. -/
theorem c10_answer_mask_loop_terminates_iff_mask_free_of_identifier :
    (∀ (a idt mask : List Char), QPShape idt → QPShape mask →
        containsSubstring idt mask = false →
        ∃ fuel res, maskAnswerLoop idt mask fuel a = some res ∧
          firstOccIdx idt res = none) ∧
    (containsSubstring "Q1".data "Q1".data = true ∧
      containsSubstring "Q1".data "SELECT Q1".data = true ∧
      ∀ fuel, maskAnswerLoop "Q1".data "Q1".data fuel "SELECT Q1".data = none) := by
  constructor
  · intro a idt mask hid hmask hnc
    have hnone : firstOccIdx idt mask = none := by
      unfold containsSubstring at hnc
      cases hfr : firstOccIdx idt mask with
      | none => rfl
      | some p => rw [hfr] at hnc; simp at hnc
    have hnpfx : ¬ idt <+: mask := by
      have := firstOccIdx_none_spec hid.ne_nil hnone 0
      rwa [List.drop_zero] at this
    rcases Nat.lt_or_ge mask.length idt.length with hML | hML
    · exact terminates_of_short idt mask hid hML a.length a le_rfl
    · exact terminates_of_long idt mask hid hmask hnpfx hML
        (occSet idt a).card a le_rfl
  · refine ⟨by decide, by decide, ?_⟩
    intro fuel
    induction fuel with
    | zero => rfl
    | succ m ih =>
      rw [maskAnswerLoop_step
        (show replaceFirst "SELECT Q1".data "Q1".data "Q1".data =
          some "SELECT Q1".data from by decide)]
      exact ih

theorem c10_witness :
    ∃ fuel res,
      maskAnswerLoop "Q25188".data "Q0".data fuel "SELECT Q25188 P57 x".data =
        some res ∧
      firstOccIdx "Q25188".data res = none :=
  c10_answer_mask_loop_terminates_iff_mask_free_of_identifier.1 "SELECT Q25188 P57 x".data "Q25188".data "Q0".data
    ⟨'Q', "25188".data, rfl, Or.inl rfl, by decide⟩
    ⟨'Q', "0".data, rfl, Or.inl rfl, by decide⟩
    (by decide)

end DutchKBQA
